import Mathlib

/-!
Verification of the pyrixs data-loading module (loaddata.py).

The module converts between a dense 2D image and a sparse photon-event
list, and dispatches file loading by filename extension.  We embed the
two converters and the two dispatchers shallowly: images are row-major
lists of rows of rational intensities, photon events are rational
triples (x, y, I), and the numpy operations (meshgrid + ravel,
astype(int), np.max, zeros, fancy-index assignment) are spelled out as
executable list functions.  File I/O itself is outside the embedding;
the dispatchers return a tag naming the branch taken.
-/

set_option autoImplicit false

namespace Pyrixs

/-- A photon event: x coordinate, y coordinate, intensity I. -/
abbrev Event := ℚ × ℚ × ℚ

/-- A 2D image: row-major list of rows of intensities. -/
abbrev Image := List (List ℚ)

/-- Number of rows, image.shape[0]. -/
def nrows (img : Image) : ℕ := img.length

/-- Number of columns, image.shape[1]; a numpy 2D array is rectangular,
so the first row is representative. -/
def ncols (img : Image) : ℕ := (img.headD []).length

/-- Rectangularity: every row has length `ncols`.  This always holds for
a numpy 2D array and scopes the list model to genuine images. -/
def Rect (img : Image) : Prop := ∀ row ∈ img, row.length = ncols img

instance (img : Image) : Decidable (Rect img) :=
  inferInstanceAs (Decidable (∀ row ∈ img, row.length = ncols img))

/-- Pixel access image[r][c], defaulting to 0 out of range. -/
def pix (img : Image) (r c : ℕ) : ℚ := (img.getD r []).getD c 0

/-- Embeds `image_to_photon_events`: meshgrid of the pixel centers
(arange(shape[1]) + 0.5 crossed with arange(shape[0]) + 0.5) followed by
ravel and vstack/transpose, i.e. row-major enumeration with x varying
fastest, each cell (r, c) contributing (c + 0.5, r + 0.5, image[r][c]). -/
def image_to_photon_events (image : Image) : List Event :=
  (List.range (nrows image)).flatMap (fun (r : ℕ) =>
    (List.range (ncols image)).map (fun (c : ℕ) =>
      ((c : ℚ) + 1/2, (r : ℚ) + 1/2, pix image r c)))

/-- Conversion to integer as numpy astype(int) performs it: truncation
toward zero. -/
def trunc (q : ℚ) : ℤ := if 0 ≤ q then ⌊q⌋ else ⌈q⌉

/-- Column index of an event, xind = (x - 0.5).astype(int). -/
def eventXind (e : Event) : ℤ := trunc (e.1 - 1/2)

/-- Row index of an event, yind = (y - 0.5).astype(int). -/
def eventYind (e : Event) : ℤ := trunc (e.2.1 - 1/2)

/-- Maximum of a nonempty collection given as head and tail, as np.max
computes it on a nonempty array. -/
def listMax1 (a : ℤ) (l : List ℤ) : ℤ := l.foldl max a

/-- numpy basic integer indexing along an axis of length n: a negative
index wraps once by adding n; an index still out of range is an
IndexError, modeled as none. -/
def adjIndex (n i : ℤ) : Option ℕ :=
  if 0 ≤ i then (if i < n then some i.toNat else none)
  else (if 0 ≤ i + n then some (i + n).toNat else none)

/-- Elementwise assignment image[r][c] = v (no effect out of range; all
uses below are in range). -/
def setCell (img : Image) (r c : ℕ) (v : ℚ) : Image :=
  img.set r ((img.getD r []).set c v)

/-- np.zeros((R, C)). -/
def zeroImage (R C : ℕ) : Image := List.replicate R (List.replicate C 0)

/-- One step of the fancy-index assignment image[yind, xind] = I: adjust
both indices for the axis lengths, then set the cell. -/
def assignStep (rows cols : ℤ) (img : Image) (ev : Event) : Option Image :=
  (adjIndex rows (eventYind ev)).bind (fun r =>
    (adjIndex cols (eventXind ev)).map (fun c => setCell img r c ev.2.2))

/-- Sequential fancy-index assignment image[yind, xind] = I over the
whole event list; with duplicate indices the later event wins. -/
def assignAll (rows cols : ℤ) (img : Image) : List Event → Option Image
  | [] => some img
  | ev :: evs =>
    match assignStep rows cols img ev with
    | none => none
    | some img2 => assignAll rows cols img2 evs

/-- Embeds `photon_events_to_image`: indices via truncation, shape
(yind.max()+1, xind.max()+1), zeros then image[yind, xind] = I.  An
empty input makes np .max() raise, modeled as none; a non-positive
inferred shape or an unrecoverable negative index likewise errors. -/
def photon_events_to_image (photon_events : List Event) : Option Image :=
  match photon_events with
  | [] => none
  | e :: es =>
    let rows : ℤ := listMax1 (eventYind e) (es.map eventYind) + 1
    let cols : ℤ := listMax1 (eventXind e) (es.map eventXind) + 1
    if 0 < rows ∧ 0 < cols then
      assignAll rows cols (zeroImage rows.toNat cols.toNat) (e :: es)
    else none

/-- The pure sequential assignment used once all indices are known to be
in range: fold setCell over the events, truncated indices cast to ℕ. -/
def pureAssign (img : Image) (l : List Event) : Image :=
  l.foldl (fun im ev => setCell im (eventYind ev).toNat (eventXind ev).toNat ev.2.2) img

/-- Specification column index from the spec contract: c = floor(x − 0.5). -/
def floorColIdx (ev : Event) : ℤ := ⌊ev.1 - (1/2 : ℚ)⌋

/-- Specification row index from the spec contract: r = floor(y − 0.5). -/
def floorRowIdx (ev : Event) : ℤ := ⌊ev.2.1 - (1/2 : ℚ)⌋

/-- Pixel-center convention: both coordinates are a natural pixel index
plus 0.5. -/
def PixelCenter (ev : Event) : Prop :=
  (∃ c : ℕ, ev.1 = (c : ℚ) + 1/2) ∧ (∃ r : ℕ, ev.2.1 = (r : ℚ) + 1/2)

/-- The last event of the list mapping to cell (i, j) under the floor
contract, if any. -/
def lastHitF (evs : List Event) (i j : ℕ) : Option Event :=
  (evs.filter (fun ev => floorRowIdx ev == (i : ℤ) && floorColIdx ev == (j : ℤ))).getLast?

/-- Python s[-n:], the last n characters (the whole string when shorter). -/
def pyTail (s : List Char) (n : ℕ) : List Char := s.drop (s.length - n)

/-- Python s.lower(). -/
def pyLower (s : List Char) : List Char := s.map Char.toLower

/-- Case-insensitive "filename ends with this extension", the notion the
spec uses for recognized formats. -/
def endsWithCI (s ext : List Char) : Prop := pyLower ext <:+ pyLower s

instance (s ext : List Char) : Decidable (endsWithCI s ext) :=
  inferInstanceAs (Decidable (pyLower ext <:+ pyLower s))

/-- Outcome of get_image, one tag per branch of the extension dispatch. -/
inductive ImageResult
  | h5events   -- .h5: read the event list, append unit intensities
  | tifImage   -- .tif: imread then image_to_photon_events
  | nxsImages  -- .nxs: load_nxfile then convert each frame
  | unknown    -- anything else: print a diagnostic, return None, no exception
  deriving DecidableEq

/-- Embeds the extension dispatch of `get_image`: the source lowercases
filename[-3:] and filename[-4:] before comparing. -/
def get_image (filename : List Char) : ImageResult :=
  if pyLower (pyTail filename 3) = ['.', 'h', '5'] then .h5events
  else if pyLower (pyTail filename 4) = ['.', 't', 'i', 'f'] then .tifImage
  else if pyLower (pyTail filename 4) = ['.', 'n', 'x', 's'] then .nxsImages
  else .unknown

/-- Outcome of get_spectrum, one tag per branch of the extension dispatch. -/
inductive SpectrumResult
  | loadtxt         -- parse with np.loadtxt
  | h5spectrum      -- read the h5 spectrum, expand to (index, I, I) rows
  | wrongExtension  -- raise Exception with message Wrong file extension
  deriving DecidableEq

/-- Embeds the extension dispatch of `get_spectrum`.  The source compares
filename[-4:] (four characters) against the five-character literal
".spec", and does not lowercase the first three comparisons; both quirks
are preserved. -/
def get_spectrum (filename : List Char) : SpectrumResult :=
  if pyTail filename 4 = ['.', 't', 'x', 't'] then .loadtxt
  else if pyTail filename 4 = ['.', 'd', 'a', 't'] then .loadtxt
  else if pyTail filename 4 = ['.', 's', 'p', 'e', 'c'] then .loadtxt
  else if pyLower (pyTail filename 3) = ['.', 'h', '5'] then .h5spectrum
  else .wrongExtension

/-! ### Helper lemmas -/

theorem trunc_of_nonneg {q : ℚ} (h : 0 ≤ q) : trunc q = ⌊q⌋ := by
  unfold trunc
  exact if_pos h

theorem trunc_natCast (n : ℕ) : trunc (n : ℚ) = n := by
  rw [trunc_of_nonneg (by positivity)]
  exact Int.floor_natCast n

theorem eventXind_grid (c r : ℕ) (v : ℚ) :
    eventXind ((c : ℚ) + 1/2, (r : ℚ) + 1/2, v) = c := by
  unfold eventXind
  simpa using trunc_natCast c

theorem eventYind_grid (c r : ℕ) (v : ℚ) :
    eventYind ((c : ℚ) + 1/2, (r : ℚ) + 1/2, v) = r := by
  unfold eventYind
  simpa using trunc_natCast r

theorem pyLower_tail_suffix (s : List Char) (n : ℕ) :
    pyLower (pyTail s n) <:+ pyLower s := by
  obtain ⟨t, ht⟩ := List.drop_suffix (s.length - n) s
  refine ⟨pyLower t, ?_⟩
  simp only [pyLower, pyTail, ← List.map_append, ht]

theorem endsWithCI_of_tail_eq {s ext : List Char} {n : ℕ} (h : pyTail s n = ext) :
    endsWithCI s ext := by
  unfold endsWithCI
  rw [← h]
  exact pyLower_tail_suffix s n

theorem endsWithCI_of_lower_tail_eq {s ext : List Char} {n : ℕ}
    (hfix : pyLower ext = ext) (h : pyLower (pyTail s n) = ext) :
    endsWithCI s ext := by
  unfold endsWithCI
  rw [hfix, ← h]
  exact pyLower_tail_suffix s n

theorem pyTail_length_le (s : List Char) (n : ℕ) : (pyTail s n).length ≤ n := by
  unfold pyTail
  rw [List.length_drop]
  omega

theorem pe2i_singleton (e : Event) (hy : eventYind e = 0) (hx : eventXind e = 0) :
    photon_events_to_image [e] = some [[e.2.2]] := by
  simp [photon_events_to_image, listMax1, assignAll, assignStep, adjIndex, zeroImage,
    setCell, hy, hx]

/-! ### Claim C5 -/

/-- C5: for every coordinate value v ≥ 0.5, truncation toward zero of
(v − 0.5) equals floor(v − 0.5); hence under the pixel-center
precondition the indices photon_events_to_image computes by truncation
coincide with the floor-based contract c = floor(x − 0.5),
r = floor(y − 0.5). -/
theorem trunc_floor_agree (v : ℚ) (hv : 1/2 ≤ v) :
    trunc (v - 1/2) = ⌊v - (1/2 : ℚ)⌋
    ∧ (∀ ev : Event, ev.1 = v → eventXind ev = floorColIdx ev)
    ∧ (∀ ev : Event, ev.2.1 = v → eventYind ev = floorRowIdx ev) := by
  have h0 : (0 : ℚ) ≤ v - 1/2 := by linarith
  refine ⟨trunc_of_nonneg h0, ?_, ?_⟩
  · intro ev hev
    unfold eventXind floorColIdx
    rw [hev]
    exact trunc_of_nonneg h0
  · intro ev hev
    unfold eventYind floorRowIdx
    rw [hev]
    exact trunc_of_nonneg h0

/-- Witness for C5 at v = 3/2 and the event (3/2, 3/2, 0). -/
theorem trunc_floor_agree_witness :
    (1/2 : ℚ) ≤ 3/2
    ∧ (trunc ((3:ℚ)/2 - 1/2) = ⌊(3:ℚ)/2 - (1/2 : ℚ)⌋
      ∧ (∀ ev : Event, ev.1 = 3/2 → eventXind ev = floorColIdx ev)
      ∧ (∀ ev : Event, ev.2.1 = 3/2 → eventYind ev = floorRowIdx ev)) :=
  ⟨by norm_num, trunc_floor_agree (3/2) (by norm_num)⟩

/-! ### Claim C10 -/

/-- C10: an event coordinate strictly between −0.5 and 0.5 is mapped to
index 0 by the truncation the code uses, although floor would give −1;
such an event is silently folded into column/row 0, as the reconstruction
of the singleton event list shows. -/
theorem offgrid_coordinate_folds_to_zero (w y v : ℚ) (h1 : -(1/2) < w) (h2 : w < 1/2) :
    eventXind (w, y, v) = 0
    ∧ eventYind (y, w, v) = 0
    ∧ ⌊w - (1/2 : ℚ)⌋ = -1
    ∧ photon_events_to_image [(w, 1/2, v)] = some [[v]] := by
  have hq1 : (-1 : ℚ) < w - 1/2 := by linarith
  have hq2 : w - 1/2 < 0 := by linarith
  have htr : trunc (w - 1/2) = 0 := by
    unfold trunc
    rw [if_neg (by linarith), Int.ceil_eq_zero_iff, Set.mem_Ioc]
    exact ⟨by linarith, by linarith⟩
  have hx : eventXind (w, y, v) = 0 := htr
  have hy : eventYind (y, w, v) = 0 := htr
  have hfl : ⌊w - (1/2 : ℚ)⌋ = -1 := by
    rw [Int.floor_eq_iff]
    push_cast
    exact ⟨by linarith, by linarith⟩
  refine ⟨hx, hy, hfl, ?_⟩
  have hy2 : eventYind (w, 1/2, v) = 0 := by
    unfold eventYind
    simpa using trunc_natCast 0
  have hx2 : eventXind (w, 1/2, v) = 0 := htr
  simpa using pe2i_singleton (w, 1/2, v) hy2 hx2

/-- Witness for C10 at w = 0, y = 9/2, v = 7. -/
theorem offgrid_coordinate_folds_to_zero_witness :
    (-(1/2 : ℚ) < 0 ∧ (0 : ℚ) < 1/2)
    ∧ (eventXind (0, 9/2, 7) = 0
      ∧ eventYind (9/2, 0, 7) = 0
      ∧ ⌊(0 : ℚ) - (1/2 : ℚ)⌋ = -1
      ∧ photon_events_to_image [(0, 1/2, 7)] = some [[7]]) :=
  ⟨⟨by norm_num, by norm_num⟩, offgrid_coordinate_folds_to_zero 0 (9/2) 7 (by norm_num) (by norm_num)⟩

/-! ### Claim C6 (code bug: the .spec branch of get_spectrum is dead) -/

/-- C6: the source compares filename[-4:], a four-character slice,
against the five-character literal ".spec", so a ".spec" file never
reaches np.loadtxt and instead falls through to the final branch, which
raises Exception. This theorem evaluates the dispatch at the failing
input "file.spec". -/
theorem get_spectrum_spec_extension_raises :
    get_spectrum ['f', 'i', 'l', 'e', '.', 's', 'p', 'e', 'c'] = SpectrumResult.wrongExtension
    ∧ get_spectrum ['f', 'i', 'l', 'e', '.', 'T', 'X', 'T'] = SpectrumResult.wrongExtension := by
  constructor <;> decide

/-! ### Claim C7 -/

/-- C7: for every filename whose extension is none of the recognized
image formats .h5, .tif, .nxs (matched case-insensitively), get_image
takes the fall-through branch: it prints a diagnostic and returns None,
raising nothing. -/
theorem get_image_unknown_extension (fn : List Char)
    (h1 : ¬ endsWithCI fn ['.', 'h', '5'])
    (h2 : ¬ endsWithCI fn ['.', 't', 'i', 'f'])
    (h3 : ¬ endsWithCI fn ['.', 'n', 'x', 's']) :
    get_image fn = ImageResult.unknown := by
  unfold get_image
  rw [if_neg, if_neg, if_neg]
  · intro h
    exact h3 (endsWithCI_of_lower_tail_eq (by decide) h)
  · intro h
    exact h2 (endsWithCI_of_lower_tail_eq (by decide) h)
  · intro h
    exact h1 (endsWithCI_of_lower_tail_eq (by decide) h)

/-- Witness for C7 at the filename "pic.xyz". -/
theorem get_image_unknown_extension_witness :
    (¬ endsWithCI ['p', 'i', 'c', '.', 'x', 'y', 'z'] ['.', 'h', '5']
      ∧ ¬ endsWithCI ['p', 'i', 'c', '.', 'x', 'y', 'z'] ['.', 't', 'i', 'f']
      ∧ ¬ endsWithCI ['p', 'i', 'c', '.', 'x', 'y', 'z'] ['.', 'n', 'x', 's'])
    ∧ get_image ['p', 'i', 'c', '.', 'x', 'y', 'z'] = ImageResult.unknown :=
  ⟨⟨by decide, by decide, by decide⟩,
    get_image_unknown_extension _ (by decide) (by decide) (by decide)⟩

/-! ### Claim C8 -/

/-- C8: for every filename whose extension is none of the recognized
spectrum formats .txt, .dat, .spec, .h5 (matched case-insensitively),
get_spectrum reaches the final branch and raises the unsupported-format
exception, producing no result. -/
theorem get_spectrum_unknown_extension (fn : List Char)
    (h1 : ¬ endsWithCI fn ['.', 't', 'x', 't'])
    (h2 : ¬ endsWithCI fn ['.', 'd', 'a', 't'])
    (_h3 : ¬ endsWithCI fn ['.', 's', 'p', 'e', 'c'])
    (h4 : ¬ endsWithCI fn ['.', 'h', '5']) :
    get_spectrum fn = SpectrumResult.wrongExtension := by
  unfold get_spectrum
  rw [if_neg, if_neg, if_neg, if_neg]
  · intro h
    exact h4 (endsWithCI_of_lower_tail_eq (by decide) h)
  · intro h
    have := congrArg List.length h
    have hle := pyTail_length_le fn 4
    simp at this
    omega
  · intro h
    exact h2 (endsWithCI_of_tail_eq h)
  · intro h
    exact h1 (endsWithCI_of_tail_eq h)

/-- Witness for C8 at the filename "data.csv". -/
theorem get_spectrum_unknown_extension_witness :
    (¬ endsWithCI ['d', 'a', 't', 'a', '.', 'c', 's', 'v'] ['.', 't', 'x', 't']
      ∧ ¬ endsWithCI ['d', 'a', 't', 'a', '.', 'c', 's', 'v'] ['.', 'd', 'a', 't']
      ∧ ¬ endsWithCI ['d', 'a', 't', 'a', '.', 'c', 's', 'v'] ['.', 's', 'p', 'e', 'c']
      ∧ ¬ endsWithCI ['d', 'a', 't', 'a', '.', 'c', 's', 'v'] ['.', 'h', '5'])
    ∧ get_spectrum ['d', 'a', 't', 'a', '.', 'c', 's', 'v'] = SpectrumResult.wrongExtension :=
  ⟨⟨by decide, by decide, by decide, by decide⟩,
    get_spectrum_unknown_extension _ (by decide) (by decide) (by decide) (by decide)⟩

/-! ### Maximum of a nonempty list -/

theorem le_listMax1 (a : ℤ) (l : List ℤ) : a ≤ listMax1 a l := by
  induction l generalizing a with
  | nil => exact le_refl a
  | cons x xs ih => exact le_trans (le_max_left a x) (ih (max a x))

theorem le_listMax1_of_mem {b : ℤ} {l : List ℤ} (a : ℤ) (h : b ∈ l) : b ≤ listMax1 a l := by
  induction l generalizing a with
  | nil => cases h
  | cons x xs ih =>
    rcases List.mem_cons.mp h with h1 | h1
    · subst h1
      exact le_trans (le_max_right a b) (le_listMax1 (max a b) xs)
    · exact ih (max a x) h1

theorem le_listMax1_of_mem_cons {b : ℤ} {a : ℤ} {l : List ℤ} (h : b ∈ a :: l) :
    b ≤ listMax1 a l := by
  rcases List.mem_cons.mp h with h1 | h1
  · subst h1
    exact le_listMax1 b l
  · exact le_listMax1_of_mem a h1

theorem listMax1_mem_cons (a : ℤ) (l : List ℤ) : listMax1 a l ∈ a :: l := by
  induction l generalizing a with
  | nil => exact List.mem_cons_self a []
  | cons x xs ih =>
    have h : listMax1 a (x :: xs) = listMax1 (max a x) xs := rfl
    rw [h]
    rcases List.mem_cons.mp (ih (max a x)) with h1 | h1
    · rw [h1]
      rcases max_choice a x with h2 | h2
      · rw [h2]
        exact List.mem_cons_self a (x :: xs)
      · rw [h2]
        exact List.mem_cons_of_mem a (List.mem_cons_self x xs)
    · exact List.mem_cons_of_mem a (List.mem_cons_of_mem x h1)

/-! ### Grid enumeration lemmas for image_to_photon_events -/

theorem length_grid {α : Type} (R C : ℕ) (f : ℕ → ℕ → α) :
    ((List.range R).flatMap (fun r => (List.range C).map (f r))).length = R * C := by
  rw [List.length_flatMap]
  have h : List.map (List.length ∘ fun r => (List.range C).map (f r)) (List.range R)
      = List.replicate R C := by
    rw [show (List.length ∘ fun r => (List.range C).map (f r)) = fun _ => C by
      funext r
      simp]
    rw [List.map_const', List.length_range]
  rw [h, List.sum_replicate, smul_eq_mul]

theorem getElem_grid {α : Type} (C : ℕ) :
    ∀ (R : ℕ) (f : ℕ → ℕ → α) (r c : ℕ), r < R → c < C →
      ((List.range R).flatMap (fun i => (List.range C).map (f i)))[r * C + c]? = some (f r c) := by
  intro R
  induction R with
  | zero =>
    intro f r c hr
    exact absurd hr (Nat.not_lt_zero r)
  | succ R ih =>
    intro f r c hr hc
    rw [List.range_succ_eq_map, List.flatMap_cons, List.flatMap_map]
    cases r with
    | zero =>
      rw [List.getElem?_append, if_pos (by simpa using hc)]
      rw [Nat.zero_mul, Nat.zero_add, List.getElem?_map, List.getElem?_range hc]
      rfl
    | succ r =>
      have hlen : ((List.range C).map (f 0)).length = C := by simp
      have hge : ¬ ((r + 1) * C + c < ((List.range C).map (f 0)).length) := by
        rw [hlen]
        have : C ≤ (r + 1) * C := Nat.le_mul_of_pos_left C (Nat.succ_pos r)
        omega
      rw [List.getElem?_append, if_neg hge, hlen]
      have hidx : (r + 1) * C + c - C = r * C + c := by
        have : (r + 1) * C = r * C + C := by ring
        omega
      rw [hidx]
      have := ih (fun i => f (i + 1)) r c (Nat.lt_of_succ_lt_succ hr) hc
      simpa [Nat.succ_eq_add_one] using this

theorem mem_grid_iff {α : Type} (R C : ℕ) (f : ℕ → ℕ → α) (x : α) :
    x ∈ (List.range R).flatMap (fun r => (List.range C).map (f r))
      ↔ ∃ r, r < R ∧ ∃ c, c < C ∧ x = f r c := by
  simp only [List.mem_flatMap, List.mem_map, List.mem_range]
  constructor
  · rintro ⟨r, hr, c, hc, rfl⟩
    exact ⟨r, hr, c, hc, rfl⟩
  · rintro ⟨r, hr, c, hc, rfl⟩
    exact ⟨r, hr, c, hc, rfl⟩

/-! ### Claim C2 -/

/-- C2: on an (R, C) rectangular image, image_to_photon_events yields
exactly R·C triples, the triple at flat position r·C + c (x varying
fastest within each row) being (c + 0.5, r + 0.5, image[r][c]); an image
with no cells yields the empty event sequence. -/
theorem image_to_photon_events_spec (img : Image) (_hrect : Rect img) :
    (image_to_photon_events img).length = nrows img * ncols img
    ∧ (∀ r c : ℕ, r < nrows img → c < ncols img →
        (image_to_photon_events img)[r * ncols img + c]? =
          some ((c : ℚ) + 1/2, (r : ℚ) + 1/2, pix img r c))
    ∧ (nrows img * ncols img = 0 → image_to_photon_events img = []) := by
  refine ⟨length_grid _ _ _, ?_, ?_⟩
  · intro r c hr hc
    exact getElem_grid (ncols img) (nrows img) (fun r c => ((c : ℚ) + 1/2, (r : ℚ) + 1/2, pix img r c)) r c hr hc
  · intro h
    rw [← List.length_eq_zero]
    unfold image_to_photon_events
    rw [length_grid, h]

/-- Witness for C2 on the 2×2 image [[1,2],[3,4]], checking the length,
the event at flat position 1·2 + 0 (row 1, column 0), and the empty
image. -/
theorem image_to_photon_events_spec_witness :
    Rect [[1, 2], [3, 4]]
    ∧ (image_to_photon_events [[1, 2], [3, 4]]).length = nrows [[1, 2], [3, 4]] * ncols [[1, 2], [3, 4]]
    ∧ (image_to_photon_events [[1, 2], [3, 4]])[1 * ncols [[1, 2], [3, 4]] + 0]? =
        some ((0 : ℚ) + 1/2, (1 : ℚ) + 1/2, pix [[1, 2], [3, 4]] 1 0)
    ∧ image_to_photon_events ([] : Image) = [] :=
  ⟨by decide,
    (image_to_photon_events_spec [[1, 2], [3, 4]] (by decide)).1,
    (image_to_photon_events_spec [[1, 2], [3, 4]] (by decide)).2.1 1 0 (by decide) (by decide),
    (image_to_photon_events_spec [] (by decide)).2.2 (by decide)⟩

/-! ### Cell access and update lemmas -/

theorem getD_set_eq {α : Type} (l : List α) (n : ℕ) (a d : α) (h : n < l.length) :
    (l.set n a).getD n d = a := by
  rw [List.getD_eq_getElem?_getD, List.getElem?_set_self h]
  rfl

theorem getD_set_ne {α : Type} (l : List α) {m n : ℕ} (a d : α) (h : m ≠ n) :
    (l.set m a).getD n d = l.getD n d := by
  rw [List.getD_eq_getElem?_getD, List.getElem?_set_ne h, ← List.getD_eq_getElem?_getD]

theorem getD_of_lt {α : Type} (l : List α) (n : ℕ) (d : α) (h : n < l.length) :
    l.getD n d = l[n] := by
  rw [List.getD_eq_getElem?_getD, List.getElem?_eq_getElem h]
  rfl

theorem nrows_setCell (img : Image) (r c : ℕ) (v : ℚ) :
    nrows (setCell img r c v) = nrows img :=
  List.length_set img r _

theorem rowlen_setCell {img : Image} {C : ℕ} (hC : ∀ row ∈ img, row.length = C)
    {r : ℕ} (hr : r < nrows img) (c : ℕ) (v : ℚ) :
    ∀ row ∈ setCell img r c v, row.length = C := by
  intro row hrow
  rcases List.mem_or_eq_of_mem_set hrow with h1 | h1
  · exact hC row h1
  · subst h1
    rw [List.length_set, getD_of_lt img r [] hr]
    exact hC _ (List.getElem_mem hr)

theorem pix_setCell_eq {img : Image} {C : ℕ} (hC : ∀ row ∈ img, row.length = C)
    {r c : ℕ} (hr : r < nrows img) (hc : c < C) (v : ℚ) :
    pix (setCell img r c v) r c = v := by
  unfold pix setCell
  rw [getD_set_eq _ _ _ _ hr]
  have hlen : c < (img.getD r []).length := by
    rw [getD_of_lt img r [] hr]
    rw [hC _ (List.getElem_mem hr)]
    exact hc
  exact getD_set_eq _ _ _ _ hlen

theorem pix_setCell_ne (img : Image) {i j r c : ℕ} (hne : i ≠ r ∨ j ≠ c) (v : ℚ) :
    pix (setCell img r c v) i j = pix img i j := by
  unfold pix setCell
  rcases hne with h | h
  · rw [getD_set_ne _ _ _ (Ne.symm h)]
  · by_cases hri : r = i
    · subst hri
      by_cases hlen : r < img.length
      · rw [getD_set_eq _ _ _ _ hlen, getD_set_ne _ _ _ (Ne.symm h)]
      · rw [List.set_eq_of_length_le (Nat.le_of_not_lt hlen)]
    · rw [getD_set_ne _ _ _ hri]

/-! ### zeroImage lemmas -/

theorem nrows_zeroImage (R C : ℕ) : nrows (zeroImage R C) = R :=
  List.length_replicate R _

theorem rowlen_zeroImage (R C : ℕ) : ∀ row ∈ zeroImage R C, row.length = C := by
  intro row h
  rw [List.eq_of_mem_replicate h]
  exact List.length_replicate C _

theorem pix_zeroImage (R C i j : ℕ) : pix (zeroImage R C) i j = 0 := by
  unfold pix zeroImage
  simp only [List.getD_eq_getElem?_getD, List.getElem?_replicate]
  rcases Nat.lt_or_ge i R with h | h
  · rw [if_pos h, Option.getD_some, List.getElem?_replicate]
    rcases Nat.lt_or_ge j C with h2 | h2
    · rw [if_pos h2, Option.getD_some]
    · rw [if_neg (Nat.not_lt.mpr h2), Option.getD_none]
  · rw [if_neg (Nat.not_lt.mpr h), Option.getD_none]
    simp

/-! ### pureAssign: shape preservation and last-write-wins -/

theorem pureAssign_cons (img : Image) (ev : Event) (l : List Event) :
    pureAssign img (ev :: l)
      = pureAssign (setCell img (eventYind ev).toNat (eventXind ev).toNat ev.2.2) l := rfl

theorem pureAssign_append_singleton (img : Image) (l : List Event) (ev : Event) :
    pureAssign img (l ++ [ev])
      = setCell (pureAssign img l) (eventYind ev).toNat (eventXind ev).toNat ev.2.2 := by
  unfold pureAssign
  rw [List.foldl_append]
  rfl

theorem pureAssign_shape {R C : ℕ} :
    ∀ (l : List Event) (img : Image), nrows img = R → (∀ row ∈ img, row.length = C) →
      (∀ ev ∈ l, 0 ≤ eventYind ev ∧ eventYind ev < (R : ℤ)) →
      nrows (pureAssign img l) = R ∧ ∀ row ∈ pureAssign img l, row.length = C := by
  intro l
  induction l with
  | nil =>
    intro img h1 h2 _
    exact ⟨h1, h2⟩
  | cons ev l ih =>
    intro img h1 h2 hl
    rw [pureAssign_cons]
    have hev := hl ev (List.mem_cons_self ev l)
    have hrlt : (eventYind ev).toNat < nrows img := by
      rw [h1]
      exact (Int.toNat_lt hev.1).mpr hev.2
    refine ih _ ?_ ?_ ?_
    · rw [nrows_setCell]
      exact h1
    · exact rowlen_setCell h2 hrlt _ _
    · intro e he
      exact hl e (List.mem_cons_of_mem ev he)

theorem pix_pureAssign {R C : ℕ} (i j : ℕ) (hi : i < R) (hj : j < C) :
    ∀ (l : List Event) (img : Image), nrows img = R → (∀ row ∈ img, row.length = C) →
      (∀ ev ∈ l, 0 ≤ eventYind ev ∧ eventYind ev < (R : ℤ)
        ∧ 0 ≤ eventXind ev ∧ eventXind ev < (C : ℤ)) →
      pix (pureAssign img l) i j
        = (((l.filter (fun ev => eventYind ev == (i : ℤ) && eventXind ev == (j : ℤ))).getLast?).map
            (fun ev => ev.2.2)).getD (pix img i j) := by
  intro l
  induction l using List.reverseRecOn with
  | nil =>
    intro img _ _ _
    simp [pureAssign]
  | append_singleton l ev ih =>
    intro img h1 h2 hl
    have hl' : ∀ e ∈ l, 0 ≤ eventYind e ∧ eventYind e < (R : ℤ)
        ∧ 0 ≤ eventXind e ∧ eventXind e < (C : ℤ) :=
      fun e he => hl e (List.mem_append_left _ he)
    have hev := hl ev (List.mem_append_right _ (List.mem_cons_self ev []))
    have hshape := pureAssign_shape l img h1 h2 (fun e he => ⟨(hl' e he).1, (hl' e he).2.1⟩)
    rw [pureAssign_append_singleton, List.filter_append]
    by_cases hhit : eventYind ev = (i : ℤ) ∧ eventXind ev = (j : ℤ)
    · have hyi : (eventYind ev).toNat = i := by
        rw [hhit.1]
        exact Int.toNat_natCast i
      have hxi : (eventXind ev).toNat = j := by
        rw [hhit.2]
        exact Int.toNat_natCast j
      have hpred : (eventYind ev == (i : ℤ) && eventXind ev == (j : ℤ)) = true := by
        simp [hhit.1, hhit.2]
      simp only [List.filter_singleton, hpred, cond_true]
      rw [List.getLast?_concat]
      rw [hyi, hxi, pix_setCell_eq hshape.2 (by rw [hshape.1]; exact hi) hj]
      rfl
    · have hpred : (eventYind ev == (i : ℤ) && eventXind ev == (j : ℤ)) = false := by
        rw [Bool.and_eq_false_iff]
        rcases Decidable.not_and_iff_or_not.mp hhit with h | h
        · exact Or.inl (beq_eq_false_iff_ne.mpr h)
        · exact Or.inr (beq_eq_false_iff_ne.mpr h)
      have hne : i ≠ (eventYind ev).toNat ∨ j ≠ (eventXind ev).toNat := by
        by_contra hcon
        push_neg at hcon
        apply hhit
        constructor
        · rw [hcon.1]
          exact (Int.toNat_of_nonneg hev.1).symm
        · rw [hcon.2]
          exact (Int.toNat_of_nonneg hev.2.2.1).symm
      simp only [List.filter_singleton, hpred, cond_false, List.append_nil]
      rw [pix_setCell_ne _ hne]
      exact ih img h1 h2 hl'

/-! ### assignAll agrees with pureAssign when all indices are in range -/

theorem assignAll_eq_pureAssign :
    ∀ (l : List Event) (R C : ℤ) (img : Image),
      (∀ ev ∈ l, 0 ≤ eventYind ev ∧ eventYind ev < R ∧ 0 ≤ eventXind ev ∧ eventXind ev < C) →
      assignAll R C img l = some (pureAssign img l) := by
  intro l
  induction l with
  | nil =>
    intro R C img _
    rfl
  | cons ev l ih =>
    intro R C img hl
    have hev := hl ev (List.mem_cons_self ev l)
    have hstep : assignStep R C img ev
        = some (setCell img (eventYind ev).toNat (eventXind ev).toNat ev.2.2) := by
      unfold assignStep adjIndex
      rw [if_pos hev.1, if_pos hev.2.1, if_pos hev.2.2.1, if_pos hev.2.2.2]
      rfl
    simp only [assignAll, hstep]
    rw [pureAssign_cons]
    exact ih R C _ (fun e he => hl e (List.mem_cons_of_mem ev he))

/-! ### Pixel-center events -/

theorem pixelCenter_indices {ev : Event} (h : PixelCenter ev) :
    (∃ c : ℕ, eventXind ev = (c : ℤ) ∧ floorColIdx ev = (c : ℤ))
    ∧ (∃ r : ℕ, eventYind ev = (r : ℤ) ∧ floorRowIdx ev = (r : ℤ)) := by
  obtain ⟨⟨c, hc⟩, ⟨r, hr⟩⟩ := h
  have harithc : ev.1 - (1/2 : ℚ) = (c : ℚ) := by
    rw [hc]
    ring
  have harithr : ev.2.1 - (1/2 : ℚ) = (r : ℚ) := by
    rw [hr]
    ring
  constructor
  · refine ⟨c, ?_, ?_⟩
    · unfold eventXind
      rw [harithc]
      exact trunc_natCast c
    · unfold floorColIdx
      rw [harithc]
      exact Int.floor_natCast c
  · refine ⟨r, ?_, ?_⟩
    · unfold eventYind
      rw [harithr]
      exact trunc_natCast r
    · unfold floorRowIdx
      rw [harithr]
      exact Int.floor_natCast r

theorem pixelCenter_nonneg {ev : Event} (h : PixelCenter ev) :
    0 ≤ eventYind ev ∧ 0 ≤ eventXind ev := by
  obtain ⟨⟨c, hcx, _⟩, ⟨r, hry, _⟩⟩ := pixelCenter_indices h
  rw [hcx, hry]
  exact ⟨Int.natCast_nonneg r, Int.natCast_nonneg c⟩

theorem pixelCenter_floor_eq_trunc {ev : Event} (h : PixelCenter ev) :
    floorRowIdx ev = eventYind ev ∧ floorColIdx ev = eventXind ev := by
  obtain ⟨⟨c, hcx, hcf⟩, ⟨r, hry, hrf⟩⟩ := pixelCenter_indices h
  rw [hcx, hcf, hry, hrf]
  exact ⟨rfl, rfl⟩

/-! ### Unfolding photon_events_to_image on pixel-center inputs -/

theorem pe2i_cons_eq (e0 : Event) (es : List Event)
    (hnn : ∀ ev ∈ e0 :: es, 0 ≤ eventYind ev ∧ 0 ≤ eventXind ev) :
    photon_events_to_image (e0 :: es)
      = some (pureAssign
          (zeroImage (listMax1 (eventYind e0) (es.map eventYind) + 1).toNat
            (listMax1 (eventXind e0) (es.map eventXind) + 1).toNat)
          (e0 :: es)) := by
  have h0 := hnn e0 (List.mem_cons_self e0 es)
  have hmy : 0 ≤ listMax1 (eventYind e0) (es.map eventYind) :=
    le_trans h0.1 (le_listMax1 _ _)
  have hmx : 0 ≤ listMax1 (eventXind e0) (es.map eventXind) :=
    le_trans h0.2 (le_listMax1 _ _)
  have hyub : ∀ ev ∈ e0 :: es, eventYind ev ≤ listMax1 (eventYind e0) (es.map eventYind) := by
    intro ev hev
    rcases List.mem_cons.mp hev with h | h
    · subst h
      exact le_listMax1 _ _
    · exact le_listMax1_of_mem _ (List.mem_map_of_mem _ h)
  have hxub : ∀ ev ∈ e0 :: es, eventXind ev ≤ listMax1 (eventXind e0) (es.map eventXind) := by
    intro ev hev
    rcases List.mem_cons.mp hev with h | h
    · subst h
      exact le_listMax1 _ _
    · exact le_listMax1_of_mem _ (List.mem_map_of_mem _ h)
  simp only [photon_events_to_image]
  rw [if_pos ⟨by linarith, by linarith⟩]
  apply assignAll_eq_pureAssign
  intro ev hev
  refine ⟨(hnn ev hev).1, ?_, (hnn ev hev).2, ?_⟩
  · have := hyub ev hev
    linarith
  · have := hxub ev hev
    linarith

/-! ### Bounds and membership of listMax1 over a mapped cons list -/

theorem listMax1_map_ub (g : Event → ℤ) (e0 : Event) (es : List Event) :
    ∀ ev ∈ e0 :: es, g ev ≤ listMax1 (g e0) (es.map g) := by
  intro ev hev
  rcases List.mem_cons.mp hev with h | h
  · subst h
    exact le_listMax1 _ _
  · exact le_listMax1_of_mem _ (List.mem_map_of_mem _ h)

theorem listMax1_map_mem (g : Event → ℤ) (e0 : Event) (es : List Event) :
    ∃ ev ∈ e0 :: es, listMax1 (g e0) (es.map g) = g ev := by
  rcases List.mem_cons.mp (listMax1_mem_cons (g e0) (es.map g)) with h | h
  · exact ⟨e0, List.mem_cons_self e0 es, h⟩
  · obtain ⟨ev, hev, he⟩ := List.mem_map.mp h
    exact ⟨ev, List.mem_cons_of_mem _ hev, he.symm⟩

/-! ### Filtering the grid enumeration down to one cell -/

theorem flatMap_if_single {α : Type} (x : α) :
    ∀ (R i : ℕ), i < R →
      (List.range R).flatMap (fun r => if r = i then [x] else []) = [x] := by
  intro R
  induction R with
  | zero =>
    intro i h
    exact absurd h (Nat.not_lt_zero i)
  | succ R ih =>
    intro i h
    rw [List.range_succ, List.flatMap_append]
    by_cases hi : i < R
    · rw [ih i hi]
      have hne : ¬(R = i) := by omega
      simp [hne]
    · have hiR : i = R := by omega
      subst hiR
      have hnil : (List.range i).flatMap (fun r => if r = i then [x] else []) = [] := by
        rw [List.flatMap_eq_nil_iff]
        intro r hr
        rw [List.mem_range] at hr
        rw [if_neg (by omega)]
      rw [hnil]
      simp

theorem filter_range_natCast_single (j : ℕ) :
    ∀ (C : ℕ), j < C → (List.range C).filter (fun (c : ℕ) => (c : ℤ) == (j : ℤ)) = [j] := by
  intro C
  induction C with
  | zero =>
    intro h
    exact absurd h (Nat.not_lt_zero j)
  | succ C ih =>
    intro h
    rw [List.range_succ, List.filter_append]
    by_cases hj : j < C
    · rw [ih hj]
      have hne : ((C : ℤ) == (j : ℤ)) = false := by
        rw [beq_eq_false_iff_ne]
        intro hc
        have : C = j := by exact_mod_cast hc
        omega
      simp [hne]
    · have hjC : j = C := by omega
      subst hjC
      have hnil : (List.range j).filter (fun (c : ℕ) => (c : ℤ) == (j : ℤ)) = [] := by
        rw [List.filter_eq_nil_iff]
        intro c hc
        rw [List.mem_range] at hc
        simp only [beq_iff_eq, Int.natCast_inj]
        omega
      rw [hnil]
      simp

theorem filter_grid_single (img : Image) {i j : ℕ} (hi : i < nrows img) (hj : j < ncols img) :
    (image_to_photon_events img).filter
        (fun ev => eventYind ev == (i : ℤ) && eventXind ev == (j : ℤ))
      = [((j : ℚ) + 1/2, (i : ℚ) + 1/2, pix img i j)] := by
  unfold image_to_photon_events
  rw [List.filter_flatMap]
  have hinner : ∀ r : ℕ,
      ((List.range (ncols img)).map
          (fun (c : ℕ) => ((c : ℚ) + 1/2, (r : ℚ) + 1/2, pix img r c))).filter
        (fun ev => eventYind ev == (i : ℤ) && eventXind ev == (j : ℤ))
      = if r = i then [((j : ℚ) + 1/2, (i : ℚ) + 1/2, pix img i j)] else [] := by
    intro r
    rw [List.filter_map]
    have hcomp : ((fun ev => eventYind ev == (i : ℤ) && eventXind ev == (j : ℤ)) ∘
        (fun (c : ℕ) => ((c : ℚ) + 1/2, (r : ℚ) + 1/2, pix img r c)))
        = fun (c : ℕ) => ((r : ℤ) == (i : ℤ)) && ((c : ℤ) == (j : ℤ)) := by
      funext c
      simp only [Function.comp]
      rw [eventYind_grid c r _, eventXind_grid c r _]
    rw [hcomp]
    by_cases hr : r = i
    · subst hr
      have htrue : ((r : ℤ) == (r : ℤ)) = true := beq_self_eq_true _
      simp only [htrue, Bool.true_and]
      rw [filter_range_natCast_single j (ncols img) hj]
      simp
    · have hfalse : ((r : ℤ) == (i : ℤ)) = false := by
        rw [beq_eq_false_iff_ne]
        intro hc
        exact hr (by exact_mod_cast hc)
      simp [hfalse, hr]
  rw [funext hinner]
  exact flatMap_if_single _ (nrows img) i hi

/-! ### Claim C4 -/

/-- C4: photon_events_to_image on an empty events sequence hits np .max()
of an empty array, i.e. it raises rather than returning an image (modeled
as none); on any non-empty pixel-center events sequence it succeeds with
some image. -/
theorem photon_events_to_image_empty_vs_nonempty :
    photon_events_to_image [] = none
    ∧ ∀ (e0 : Event) (es : List Event), (∀ ev ∈ e0 :: es, PixelCenter ev) →
        ∃ img : Image, photon_events_to_image (e0 :: es) = some img := by
  refine ⟨rfl, ?_⟩
  intro e0 es hpc
  exact ⟨_, pe2i_cons_eq e0 es (fun ev hev => pixelCenter_nonneg (hpc ev hev))⟩

/-- Witness for C4: the empty list errors; the singleton pixel-center
event (0.5, 0.5, 5) succeeds. -/
theorem photon_events_to_image_empty_vs_nonempty_witness :
    photon_events_to_image [] = none
    ∧ (∀ ev ∈ [((1 : ℚ)/2, (1 : ℚ)/2, (5 : ℚ))], PixelCenter ev)
    ∧ ∃ img : Image, photon_events_to_image [((1 : ℚ)/2, (1 : ℚ)/2, (5 : ℚ))] = some img := by
  have hpc : ∀ ev ∈ [((1 : ℚ)/2, (1 : ℚ)/2, (5 : ℚ))], PixelCenter ev := by
    intro ev hev
    rw [List.mem_singleton] at hev
    subst hev
    exact ⟨⟨0, by norm_num⟩, ⟨0, by norm_num⟩⟩
  exact ⟨photon_events_to_image_empty_vs_nonempty.1, hpc,
    photon_events_to_image_empty_vs_nonempty.2 _ [] hpc⟩

/-! ### Claim C3 -/

/-- C3: on a non-empty events list whose coordinates follow the
pixel-center convention, photon_events_to_image returns an image of shape
(max r + 1, max c + 1) over the derived indices r = floor(y − 0.5),
c = floor(x − 0.5); each cell holds the intensity of the last event
mapping to it, and a cell hit by no event is zero (the getD default). -/
theorem photon_events_to_image_spec (e0 : Event) (es : List Event)
    (hpc : ∀ ev ∈ e0 :: es, PixelCenter ev) :
    ∃ img : Image,
      photon_events_to_image (e0 :: es) = some img
      ∧ (nrows img : ℤ) = listMax1 (floorRowIdx e0) (es.map floorRowIdx) + 1
      ∧ (∀ row ∈ img, (row.length : ℤ) = listMax1 (floorColIdx e0) (es.map floorColIdx) + 1)
      ∧ (∀ i j : ℕ, i < nrows img →
          (j : ℤ) < listMax1 (floorColIdx e0) (es.map floorColIdx) + 1 →
          pix img i j = ((lastHitF (e0 :: es) i j).map (fun ev => ev.2.2)).getD 0) := by
  have hnn : ∀ ev ∈ e0 :: es, 0 ≤ eventYind ev ∧ 0 ≤ eventXind ev :=
    fun ev hev => pixelCenter_nonneg (hpc ev hev)
  have hfr : floorRowIdx e0 = eventYind e0 :=
    (pixelCenter_floor_eq_trunc (hpc e0 (List.mem_cons_self e0 es))).1
  have hfc : floorColIdx e0 = eventXind e0 :=
    (pixelCenter_floor_eq_trunc (hpc e0 (List.mem_cons_self e0 es))).2
  have hmapr : es.map floorRowIdx = es.map eventYind :=
    List.map_congr_left (fun ev hev =>
      (pixelCenter_floor_eq_trunc (hpc ev (List.mem_cons_of_mem e0 hev))).1)
  have hmapc : es.map floorColIdx = es.map eventXind :=
    List.map_congr_left (fun ev hev =>
      (pixelCenter_floor_eq_trunc (hpc ev (List.mem_cons_of_mem e0 hev))).2)
  have h0 := hnn e0 (List.mem_cons_self e0 es)
  have hmy : 0 ≤ listMax1 (eventYind e0) (es.map eventYind) :=
    le_trans h0.1 (le_listMax1 _ _)
  have hmx : 0 ≤ listMax1 (eventXind e0) (es.map eventXind) :=
    le_trans h0.2 (le_listMax1 _ _)
  have hR0cast : ((listMax1 (eventYind e0) (es.map eventYind) + 1).toNat : ℤ)
      = listMax1 (eventYind e0) (es.map eventYind) + 1 :=
    Int.toNat_of_nonneg (by linarith)
  have hC0cast : ((listMax1 (eventXind e0) (es.map eventXind) + 1).toNat : ℤ)
      = listMax1 (eventXind e0) (es.map eventXind) + 1 :=
    Int.toNat_of_nonneg (by linarith)
  have hbounds : ∀ ev ∈ e0 :: es, 0 ≤ eventYind ev
      ∧ eventYind ev < ((listMax1 (eventYind e0) (es.map eventYind) + 1).toNat : ℤ)
      ∧ 0 ≤ eventXind ev
      ∧ eventXind ev < ((listMax1 (eventXind e0) (es.map eventXind) + 1).toNat : ℤ) := by
    intro ev hev
    have h1 := listMax1_map_ub eventYind e0 es ev hev
    have h2 := listMax1_map_ub eventXind e0 es ev hev
    refine ⟨(hnn ev hev).1, ?_, (hnn ev hev).2, ?_⟩
    · rw [hR0cast]
      linarith
    · rw [hC0cast]
      linarith
  have hshape := pureAssign_shape (e0 :: es)
    (zeroImage (listMax1 (eventYind e0) (es.map eventYind) + 1).toNat
      (listMax1 (eventXind e0) (es.map eventXind) + 1).toNat)
    (nrows_zeroImage _ _) (rowlen_zeroImage _ _)
    (fun ev hev => ⟨(hbounds ev hev).1, (hbounds ev hev).2.1⟩)
  refine ⟨_, pe2i_cons_eq e0 es hnn, ?_, ?_, ?_⟩
  · rw [hfr, hmapr, hshape.1]
    exact hR0cast
  · intro row hrow
    rw [hfc, hmapc, hshape.2 row hrow]
    exact hC0cast
  · intro i j hi hj
    rw [hfc, hmapc] at hj
    rw [hshape.1] at hi
    have hjC : j < (listMax1 (eventXind e0) (es.map eventXind) + 1).toNat := by
      rw [← hC0cast] at hj
      exact_mod_cast hj
    have hfilter : (e0 :: es).filter
        (fun ev => floorRowIdx ev == (i : ℤ) && floorColIdx ev == (j : ℤ))
        = (e0 :: es).filter
          (fun ev => eventYind ev == (i : ℤ) && eventXind ev == (j : ℤ)) :=
      List.filter_congr (fun ev hev => by
        rw [(pixelCenter_floor_eq_trunc (hpc ev hev)).1,
          (pixelCenter_floor_eq_trunc (hpc ev hev)).2])
    simp only [lastHitF]
    rw [hfilter]
    rw [pix_pureAssign i j hi hjC (e0 :: es) _ (nrows_zeroImage _ _) (rowlen_zeroImage _ _)
      hbounds]
    rw [pix_zeroImage]

/-- Witness for C3 on the singleton pixel-center event (0.5, 0.5, 5). -/
theorem photon_events_to_image_spec_witness :
    (∀ ev ∈ [((1 : ℚ)/2, (1 : ℚ)/2, (5 : ℚ))], PixelCenter ev)
    ∧ ∃ img : Image,
        photon_events_to_image [((1 : ℚ)/2, (1 : ℚ)/2, (5 : ℚ))] = some img
        ∧ (nrows img : ℤ)
            = listMax1 (floorRowIdx ((1 : ℚ)/2, (1 : ℚ)/2, (5 : ℚ)))
                (([] : List Event).map floorRowIdx) + 1
        ∧ (∀ row ∈ img, (row.length : ℤ)
            = listMax1 (floorColIdx ((1 : ℚ)/2, (1 : ℚ)/2, (5 : ℚ)))
                (([] : List Event).map floorColIdx) + 1)
        ∧ (∀ i j : ℕ, i < nrows img →
            (j : ℤ) < listMax1 (floorColIdx ((1 : ℚ)/2, (1 : ℚ)/2, (5 : ℚ)))
                (([] : List Event).map floorColIdx) + 1 →
            pix img i j
              = ((lastHitF [((1 : ℚ)/2, (1 : ℚ)/2, (5 : ℚ))] i j).map (fun ev => ev.2.2)).getD 0) := by
  have hpc : ∀ ev ∈ [((1 : ℚ)/2, (1 : ℚ)/2, (5 : ℚ))], PixelCenter ev := by
    intro ev hev
    rw [List.mem_singleton] at hev
    subst hev
    exact ⟨⟨0, by norm_num⟩, ⟨0, by norm_num⟩⟩
  exact ⟨hpc, photon_events_to_image_spec _ [] hpc⟩

/-! ### The round trip -/

theorem roundtrip_core (img : Image) (hrect : Rect img)
    (hR : 0 < nrows img) (hC : 0 < ncols img) :
    photon_events_to_image (image_to_photon_events img) = some img := by
  have hlen : (image_to_photon_events img).length = nrows img * ncols img := by
    unfold image_to_photon_events
    exact length_grid _ _ _
  have hne : image_to_photon_events img ≠ [] := by
    intro h
    rw [h] at hlen
    have hpos := Nat.mul_pos hR hC
    simp at hlen
    omega
  obtain ⟨e0, es, hevs⟩ := List.exists_cons_of_ne_nil hne
  have hmem : ∀ ev ∈ e0 :: es, ∃ r, r < nrows img ∧ ∃ c, c < ncols img ∧
      ev = ((c : ℚ) + 1/2, (r : ℚ) + 1/2, pix img r c) := by
    intro ev hev
    rw [← hevs] at hev
    unfold image_to_photon_events at hev
    exact (mem_grid_iff _ _ _ _).mp hev
  have hind : ∀ ev ∈ e0 :: es, (∃ r, r < nrows img ∧ eventYind ev = (r : ℤ))
      ∧ (∃ c, c < ncols img ∧ eventXind ev = (c : ℤ)) := by
    intro ev hev
    obtain ⟨r, hr, c, hc, rfl⟩ := hmem ev hev
    exact ⟨⟨r, hr, eventYind_grid c r _⟩, ⟨c, hc, eventXind_grid c r _⟩⟩
  have hnn : ∀ ev ∈ e0 :: es, 0 ≤ eventYind ev ∧ 0 ≤ eventXind ev := by
    intro ev hev
    obtain ⟨⟨r, _, hry⟩, ⟨c, _, hcx⟩⟩ := hind ev hev
    rw [hry, hcx]
    exact ⟨Int.natCast_nonneg r, Int.natCast_nonneg c⟩
  have hmyub : listMax1 (eventYind e0) (es.map eventYind) ≤ (nrows img : ℤ) - 1 := by
    obtain ⟨ev, hev, hevq⟩ := listMax1_map_mem eventYind e0 es
    rw [hevq]
    obtain ⟨⟨r, hr, hry⟩, _⟩ := hind ev hev
    rw [hry]
    have : (r : ℤ) < (nrows img : ℤ) := by exact_mod_cast hr
    linarith
  have hmxub : listMax1 (eventXind e0) (es.map eventXind) ≤ (ncols img : ℤ) - 1 := by
    obtain ⟨ev, hev, hevq⟩ := listMax1_map_mem eventXind e0 es
    rw [hevq]
    obtain ⟨_, ⟨c, hc, hcx⟩⟩ := hind ev hev
    rw [hcx]
    have : (c : ℤ) < (ncols img : ℤ) := by exact_mod_cast hc
    linarith
  have hcornerY : (((0 : ℕ) : ℚ) + 1/2, ((nrows img - 1 : ℕ) : ℚ) + 1/2,
      pix img (nrows img - 1) 0) ∈ e0 :: es := by
    rw [← hevs]
    unfold image_to_photon_events
    rw [mem_grid_iff]
    exact ⟨nrows img - 1, by omega, 0, hC, rfl⟩
  have hcornerX : (((ncols img - 1 : ℕ) : ℚ) + 1/2, ((0 : ℕ) : ℚ) + 1/2,
      pix img 0 (ncols img - 1)) ∈ e0 :: es := by
    rw [← hevs]
    unfold image_to_photon_events
    rw [mem_grid_iff]
    exact ⟨0, hR, ncols img - 1, by omega, rfl⟩
  have hmylb : (nrows img : ℤ) - 1 ≤ listMax1 (eventYind e0) (es.map eventYind) := by
    have h := listMax1_map_ub eventYind e0 es _ hcornerY
    rw [eventYind_grid 0 (nrows img - 1) _] at h
    have hcast : ((nrows img - 1 : ℕ) : ℤ) = (nrows img : ℤ) - 1 := by
      omega
    rw [hcast] at h
    exact h
  have hmxlb : (ncols img : ℤ) - 1 ≤ listMax1 (eventXind e0) (es.map eventXind) := by
    have h := listMax1_map_ub eventXind e0 es _ hcornerX
    rw [eventXind_grid (ncols img - 1) 0 _] at h
    have hcast : ((ncols img - 1 : ℕ) : ℤ) = (ncols img : ℤ) - 1 := by
      omega
    rw [hcast] at h
    exact h
  have hmy : listMax1 (eventYind e0) (es.map eventYind) = (nrows img : ℤ) - 1 :=
    le_antisymm hmyub hmylb
  have hmx : listMax1 (eventXind e0) (es.map eventXind) = (ncols img : ℤ) - 1 :=
    le_antisymm hmxub hmxlb
  have hR0 : (listMax1 (eventYind e0) (es.map eventYind) + 1).toNat = nrows img := by
    rw [hmy]
    omega
  have hC0 : (listMax1 (eventXind e0) (es.map eventXind) + 1).toNat = ncols img := by
    rw [hmx]
    omega
  rw [hevs, pe2i_cons_eq e0 es hnn, hR0, hC0]
  congr 1
  have hbounds : ∀ ev ∈ e0 :: es, 0 ≤ eventYind ev ∧ eventYind ev < (nrows img : ℤ)
      ∧ 0 ≤ eventXind ev ∧ eventXind ev < (ncols img : ℤ) := by
    intro ev hev
    obtain ⟨⟨r, hr, hry⟩, ⟨c, hc, hcx⟩⟩ := hind ev hev
    rw [hry, hcx]
    exact ⟨Int.natCast_nonneg r, by exact_mod_cast hr,
      Int.natCast_nonneg c, by exact_mod_cast hc⟩
  have hshape := pureAssign_shape (e0 :: es) (zeroImage (nrows img) (ncols img))
    (nrows_zeroImage _ _) (rowlen_zeroImage _ _)
    (fun ev hev => ⟨(hbounds ev hev).1, (hbounds ev hev).2.1⟩)
  apply List.ext_getElem
  · exact hshape.1
  · intro n h1 h2
    have hn : n < nrows img := h2
    apply List.ext_getElem
    · rw [hshape.2 _ (List.getElem_mem h1), hrect _ (List.getElem_mem h2)]
    · intro m hm1 hm2
      have hmC : m < ncols img := by
        have := hrect _ (List.getElem_mem h2)
        omega
      have hL : (pureAssign (zeroImage (nrows img) (ncols img)) (e0 :: es))[n][m]
          = pix (pureAssign (zeroImage (nrows img) (ncols img)) (e0 :: es)) n m := by
        unfold pix
        rw [getD_of_lt _ _ _ h1, getD_of_lt _ _ _ hm1]
      have hRr : img[n][m] = pix img n m := by
        unfold pix
        rw [getD_of_lt _ _ _ h2, getD_of_lt _ _ _ hm2]
      rw [hL, hRr]
      rw [pix_pureAssign n m hn hmC (e0 :: es) _ (nrows_zeroImage _ _) (rowlen_zeroImage _ _)
        hbounds]
      rw [← hevs, filter_grid_single img hn hmC]
      simp

/-! ### Claim C1 -/

/-- C1: converting an image with at least one cell to photon events and
back reproduces the original image exactly, same shape and same value at
every cell (equality of the row-major lists). -/
theorem image_roundtrip_exact (img : Image) (hrect : Rect img)
    (hsz : 1 ≤ nrows img * ncols img) :
    photon_events_to_image (image_to_photon_events img) = some img := by
  rcases Nat.eq_zero_or_pos (nrows img) with h | hR
  · rw [h] at hsz
    simp at hsz
  · rcases Nat.eq_zero_or_pos (ncols img) with h | hC
    · rw [h] at hsz
      simp at hsz
    · exact roundtrip_core img hrect hR hC

/-- Witness for C1 on the 2×2 image [[1,2],[3,4]]. -/
theorem image_roundtrip_exact_witness :
    Rect [[1, 2], [3, 4]]
    ∧ 1 ≤ nrows [[1, 2], [3, 4]] * ncols [[1, 2], [3, 4]]
    ∧ photon_events_to_image (image_to_photon_events [[1, 2], [3, 4]]) = some [[1, 2], [3, 4]] :=
  ⟨by decide, by decide, image_roundtrip_exact [[1, 2], [3, 4]] (by decide) (by decide)⟩

/-! ### Claim C9 (corrected: only one direction is an exact inverse) -/

/-- C9 counterexample: the single pixel-center event (1.5, 0.5, 7)
reconstructs to the 1×2 image [[0, 7]], whose re-enumeration contains the
zero-intensity pixel event (0.5, 0.5, 0) as well, so the events → image →
events direction does not reproduce the input. -/
theorem events_roundtrip_counterexample :
    (∀ ev ∈ [((3 : ℚ)/2, (1 : ℚ)/2, (7 : ℚ))], PixelCenter ev)
    ∧ Option.map image_to_photon_events
        (photon_events_to_image [((3 : ℚ)/2, (1 : ℚ)/2, (7 : ℚ))])
      ≠ some [((3 : ℚ)/2, (1 : ℚ)/2, (7 : ℚ))] := by
  constructor
  · intro ev hev
    rw [List.mem_singleton] at hev
    subst hev
    exact ⟨⟨1, by norm_num⟩, ⟨0, by norm_num⟩⟩
  · with_unfolding_all decide

/-- C9 amended: image_to_photon_events and photon_events_to_image are
exact inverses in the image → events → image direction, and the opposite
direction holds exactly for those event sequences that are a complete
row-major pixel-center enumeration of a non-empty image, i.e. sequences
in the range of image_to_photon_events. -/
theorem events_roundtrip_full_enumeration (img : Image) (hrect : Rect img)
    (hsz : 1 ≤ nrows img * ncols img) :
    photon_events_to_image (image_to_photon_events img) = some img
    ∧ Option.map image_to_photon_events
        (photon_events_to_image (image_to_photon_events img))
      = some (image_to_photon_events img) := by
  rcases Nat.eq_zero_or_pos (nrows img) with h | hR
  · rw [h] at hsz
    simp at hsz
  · rcases Nat.eq_zero_or_pos (ncols img) with h | hC
    · rw [h] at hsz
      simp at hsz
    · refine ⟨roundtrip_core img hrect hR hC, ?_⟩
      rw [roundtrip_core img hrect hR hC]
      rfl

/-- Witness for the amended C9 on the 1×1 image [[5]]. -/
theorem events_roundtrip_full_enumeration_witness :
    Rect [[(5 : ℚ)]]
    ∧ 1 ≤ nrows [[(5 : ℚ)]] * ncols [[(5 : ℚ)]]
    ∧ photon_events_to_image (image_to_photon_events [[(5 : ℚ)]]) = some [[(5 : ℚ)]]
    ∧ Option.map image_to_photon_events
        (photon_events_to_image (image_to_photon_events [[(5 : ℚ)]]))
      = some (image_to_photon_events [[(5 : ℚ)]]) := by
  have h := events_roundtrip_full_enumeration [[(5 : ℚ)]] (by decide) (by decide)
  exact ⟨by decide, by decide, h.1, h.2⟩

end Pyrixs
